import Mathlib

/-!
Verification of the ayejay odds library (header odds.hpp): the splitmix64
seed mixer, the xoshiro256 star-star generator, the unbiased bounded
sampler uniform_bounded, and the probability checks one_in and one_in_t.

Modelling conventions.  Machine 64-bit words are Nat values reduced modulo
2 ^ 64 exactly where the C++ unsigned arithmetic wraps (shifts and
multiplications); operations that cannot exceed 64 bits on 64-bit inputs
(xor, or, and, right shift) are taken as the plain Nat operations.  The
unbounded rejection loop of uniform_bounded is modelled with explicit
fuel and an Option result, none meaning that the loop would still be
running after that many draws.  The static_cast back to the template
parameter UInt is value-preserving on every return path (mask, high
product word, and remainder are each strictly below the bound or below
the mask, which fit in UInt), so results are kept as plain Nat.
-/

namespace Odds

/-- Modulus of unsigned 64-bit arithmetic. -/
def U64 : Nat := 2 ^ 64

/-- rotl64 from the source: (x << k) | (x >> (64 - k)) on uint64. -/
def rotl64 (x : Nat) (k : Nat) : Nat :=
  ((x <<< k) % U64) ||| (x >>> (64 - k))

/-- Additive constant of the splitmix64 state update. -/
def GOLDEN : Nat := 0x9E3779B97F4A7C15

/-- One call of splitmix64.next_u64 on a given state: returns the updated
state (state + GOLDEN wrapped) and the 64-bit output word. -/
def sm_next (state : Nat) : Nat × Nat :=
  let z0 := (state + 0x9E3779B97F4A7C15) % U64
  let z1 := ((z0 ^^^ (z0 >>> 30)) * 0xBF58476D1CE4E5B9) % U64
  let z2 := ((z1 ^^^ (z1 >>> 27)) * 0x94D049BB133111EB) % U64
  (z0, z2 ^^^ (z2 >>> 31))

/-- First avalanche round of splitmix64: xor-shift 30 then multiply. -/
def av1 (z : Nat) : Nat := ((z ^^^ (z >>> 30)) * 0xBF58476D1CE4E5B9) % U64

/-- Second avalanche round of splitmix64: xor-shift 27 then multiply. -/
def av2 (z : Nat) : Nat := ((z ^^^ (z >>> 27)) * 0x94D049BB133111EB) % U64

/-- Third avalanche round of splitmix64: final xor-shift 31. -/
def av3 (z : Nat) : Nat := z ^^^ (z >>> 31)

/-- Composition of the three avalanche rounds. -/
def avalanche (z : Nat) : Nat := av3 (av2 (av1 z))

/-- State of the xoshiro256 star-star generator: four 64-bit words. -/
structure Xoshiro where
  s0 : Nat
  s1 : Nat
  s2 : Nat
  s3 : Nat
deriving DecidableEq, Repr

/-- The default-constructed state of xoshiro256ss (source lines 64-66). -/
def defaultState : Xoshiro :=
  ⟨0x123456789ABCDEF0, 0xCAFEBABEDEADC0DE, 0x0F1E2D3C4B5A6978, 0x1122334455667788⟩

/-- The fixed fallback state substituted when the mixer yields all-zero. -/
def fallbackState : Xoshiro :=
  ⟨0x9E3779B97F4A7C15, 0xBF58476D1CE4E5B9, 0x94D049BB133111EB, 0xD1B54A32D192ED03⟩

/-- xoshiro256ss.seed_with: run splitmix64 from the seed, take four
successive outputs as the state, and substitute the fallback constants
if those four words are all zero. -/
def seed_with (seed : Nat) : Xoshiro :=
  let r0 := sm_next seed
  let r1 := sm_next r0.1
  let r2 := sm_next r1.1
  let r3 := sm_next r2.1
  let w0 := r0.2
  let w1 := r1.2
  let w2 := r2.2
  let w3 := r3.2
  if w0 ||| w1 ||| w2 ||| w3 = 0 then fallbackState else ⟨w0, w1, w2, w3⟩

/-- xoshiro256ss.next_u64: returns the output word and the updated state. -/
def next_u64 (g : Xoshiro) : Nat × Xoshiro :=
  let result := (rotl64 ((g.s1 * 5) % U64) 7 * 9) % U64
  let t := (g.s1 <<< 17) % U64
  let a2 := g.s2 ^^^ g.s0
  let a3 := g.s3 ^^^ g.s1
  let a1 := g.s1 ^^^ a2
  let a0 := g.s0 ^^^ a3
  let b2 := a2 ^^^ t
  let b3 := rotl64 a3 45
  (result, ⟨a0, a1, b2, b3⟩)

/-- xoshiro256ss.next_u32: upper half of one next_u64 draw. -/
def next_u32 (g : Xoshiro) : Nat × Xoshiro :=
  let r := next_u64 g
  (r.1 >>> 32, r.2)

/-- The state reached after n calls of next_u64. -/
def iterateNext (n : Nat) (g : Xoshiro) : Xoshiro :=
  match n with
  | 0 => g
  | n + 1 => iterateNext n (next_u64 g).2

/-- The all-zero (invalid) generator state. -/
def allZero (g : Xoshiro) : Prop :=
  g.s0 = 0 ∧ g.s1 = 0 ∧ g.s2 = 0 ∧ g.s3 = 0

instance (g : Xoshiro) : Decidable (allZero g) := by
  unfold allZero; infer_instance

/-- Rejection threshold of uniform_bounded: (0 - b) % b computed in
64-bit wraparound arithmetic ((0 - b) wraps to 2^64 - b). -/
def threshold (b : Nat) : Nat := ((U64 - b) % U64) % b

/-- One iteration of the wide-multiply rejection loop (the __uint128_t
path): draw x, form the 128-bit product x * b, accept when the low word
is at least the threshold, returning the high word. -/
def ub_step (g : Xoshiro) (b : Nat) : Option Nat × Xoshiro :=
  let r := next_u64 g
  let m := r.1 * b
  let l := m % U64
  if threshold b ≤ l then (some (m / U64), r.2) else (none, r.2)

/-- The rejection loop of uniform_bounded with explicit fuel. -/
def ub_loop (fuel : Nat) (g : Xoshiro) (b : Nat) : Option (Nat × Xoshiro) :=
  match fuel with
  | 0 => none
  | fuel + 1 =>
    match ub_step g b with
    | (some v, g2) => some (v, g2)
    | (none, g2) => ub_loop fuel g2 b

/-- uniform_bounded (wide-multiply build): bound 0 returns 0 without
drawing; a power-of-two bound masks one draw; otherwise the Lemire
rejection loop runs. -/
def uniform_bounded (fuel : Nat) (g : Xoshiro) (b : Nat) : Option (Nat × Xoshiro) :=
  if b = 0 then some (0, g)
  else if b &&& (b - 1) = 0 then
    let r := next_u64 g
    some (r.1 &&& (b - 1), r.2)
  else ub_loop fuel g b

/-- The largest multiple of b that fits in 64 bits, as computed by the
portable path: (max_uint64 / b) * b. -/
def portableLimit (b : Nat) : Nat := ((U64 - 1) / b) * b

/-- One iteration of the portable rejection loop: draw x, accept when x
is below the largest multiple of b, returning x % b. -/
def ub_step_portable (g : Xoshiro) (b : Nat) : Option Nat × Xoshiro :=
  let r := next_u64 g
  if r.1 < portableLimit b then (some (r.1 % b), r.2) else (none, r.2)

/-- The portable rejection loop with explicit fuel. -/
def ub_loop_portable (fuel : Nat) (g : Xoshiro) (b : Nat) : Option (Nat × Xoshiro) :=
  match fuel with
  | 0 => none
  | fuel + 1 =>
    match ub_step_portable g b with
    | (some v, g2) => some (v, g2)
    | (none, g2) => ub_loop_portable fuel g2 b

/-- one_in(rng, bound): certain when bound <= 1, otherwise true exactly
when the bounded sample is 0. -/
def one_in (fuel : Nat) (g : Xoshiro) (bound : Nat) : Option (Bool × Xoshiro) :=
  if bound ≤ 1 then some (true, g)
  else
    match uniform_bounded fuel g bound with
    | some (v, g2) => some (decide (v = 0), g2)
    | none => none

/-- The compile-time specialization one_in_t<N>::operator()(rng): the
N = 1 branch is resolved up front, every other N samples with bound N. -/
def one_in_t (N : Nat) (fuel : Nat) (g : Xoshiro) : Option (Bool × Xoshiro) :=
  if N = 1 then some (true, g)
  else
    match uniform_bounded fuel g N with
    | some (v, g2) => some (decide (v = 0), g2)
    | none => none

/-- Number of 64-bit draws the power-of-two mask path sends to the value
v: draws x with x AND (b - 1) = v. -/
def maskCount (b v : Nat) : Nat :=
  ((Finset.range U64).filter (fun x => x &&& (b - 1) = v)).card

/-- Number of 64-bit draws the wide-multiply rejection path accepts and
sends to the value v: draws x whose product low word reaches the
threshold and whose product high word is v. -/
def lemireCount (b v : Nat) : Nat :=
  ((Finset.range U64).filter
    (fun x => threshold b ≤ (x * b) % U64 ∧ (x * b) / U64 = v)).card

/-- Number of 64-bit draws the portable rejection path accepts and sends
to the value v: draws x below the largest multiple of b with x % b = v. -/
def portableCount (b v : Nat) : Nat :=
  ((Finset.range U64).filter
    (fun x => x < portableLimit b ∧ x % b = v)).card

/-- Mixer state after k splitmix64 calls starting from the seed. -/
def smState (s : Nat) : Nat → Nat
  | 0 => s
  | k + 1 => (sm_next (smState s k)).1

/-- Output of the (k+1)-th splitmix64 call starting from the seed. -/
def smOut (s k : Nat) : Nat := (sm_next (smState s k)).2

/- ------------------------------------------------------------------ -/
/- Helper lemmas                                                      -/
/- ------------------------------------------------------------------ -/

theorem or_eq_zero (a b : Nat) : a ||| b = 0 ↔ a = 0 ∧ b = 0 := by
  constructor
  · intro h
    have key : ∀ i, a.testBit i = false ∧ b.testBit i = false := by
      intro i
      have := congrArg (fun x => Nat.testBit x i) h
      simpa [Nat.testBit_or] using this
    exact ⟨Nat.eq_of_testBit_eq fun i => by simp [(key i).1],
           Nat.eq_of_testBit_eq fun i => by simp [(key i).2]⟩
  · rintro ⟨rfl, rfl⟩
    rfl

theorem rotl45_eq_zero {y : Nat} (h : rotl64 y 45 = 0) : y = 0 := by
  rw [rotl64] at h
  obtain ⟨hlo, hhi⟩ := (or_eq_zero _ _).mp h
  have hdvd : U64 ∣ y <<< 45 := Nat.dvd_of_mod_eq_zero hlo
  rw [Nat.shiftLeft_eq] at hdvd
  have hsplit : U64 = 2 ^ 19 * 2 ^ 45 := by norm_num [U64]
  rw [hsplit] at hdvd
  have h19 : (2 : Nat) ^ 19 ∣ y := by
    have h45 : (2 : Nat) ^ 45 ≠ 0 := by positivity
    exact (mul_dvd_mul_iff_right h45).mp hdvd
  have hlt : y < 2 ^ 19 := by
    rw [Nat.shiftRight_eq_div_pow] at hhi
    exact (Nat.div_eq_zero_iff (by positivity)).mp hhi
  exact Nat.eq_zero_of_dvd_of_lt h19 hlt

theorem shift17_fixed {y : Nat} (h : y = (y <<< 17) % U64) : y = 0 := by
  have hU : 0 < U64 := by norm_num [U64]
  have hy : y < U64 := h ▸ Nat.mod_lt _ hU
  have hp : (2 : Nat) ^ 17 = 131072 := by norm_num
  have h2 : y * 131072 % U64 = y := by
    rw [← hp, ← Nat.shiftLeft_eq]; exact h.symm
  have hdm := Nat.div_add_mod (y * 131072) U64
  have hdvd : U64 ∣ y * 131071 := by
    refine ⟨y * 131072 / U64, ?_⟩
    omega
  have hcop : Nat.Coprime U64 131071 := by
    have : Nat.Coprime 2 131071 := by decide
    exact Nat.Coprime.pow_left 64 this
  have : U64 ∣ y := hcop.dvd_of_dvd_mul_right hdvd
  exact Nat.eq_zero_of_dvd_of_lt this hy

theorem next_preserves_nonzero (g : Xoshiro) (h : ¬ allZero g) :
    ¬ allZero (next_u64 g).2 := by
  intro hz
  apply h
  obtain ⟨h0, h1, h2, h3⟩ := hz
  simp only [next_u64] at h0 h1 h2 h3
  have e31 : g.s3 = g.s1 := Nat.xor_eq_zero.mp (rotl45_eq_zero h3)
  have e0 : g.s0 = 0 := by
    have : g.s3 ^^^ g.s1 = 0 := Nat.xor_eq_zero.mpr e31
    rw [this, Nat.xor_zero] at h0
    exact h0
  have e21 : g.s2 = g.s1 := by
    rw [e0, Nat.xor_zero] at h1
    exact (Nat.xor_eq_zero.mp h1).symm
  have e1 : g.s1 = 0 := by
    rw [e0, Nat.xor_zero] at h2
    have : g.s2 = (g.s1 <<< 17) % U64 := Nat.xor_eq_zero.mp h2
    rw [e21] at this
    exact shift17_fixed this
  exact ⟨e0, e1, by rw [e21, e1], by rw [e31, e1]⟩

theorem seed_with_nonzero (s : Nat) : ¬ allZero (seed_with s) := by
  rw [seed_with]
  split
  · decide
  · rename_i h
    rw [or_eq_zero, or_eq_zero, or_eq_zero] at h
    intro hz
    obtain ⟨h0, h1, h2, h3⟩ := hz
    exact h ⟨⟨⟨h0, h1⟩, h2⟩, h3⟩

theorem iterate_preserves_nonzero (n : Nat) :
    ∀ g : Xoshiro, ¬ allZero g → ¬ allZero (iterateNext n g) := by
  induction n with
  | zero => intro g hg; exact hg
  | succ n ih =>
    intro g hg
    exact ih _ (next_preserves_nonzero g hg)

theorem ub_pow2 (fuel : Nat) (g : Xoshiro) (k : Nat) :
    uniform_bounded fuel g (2 ^ k)
      = some ((next_u64 g).1 &&& (2 ^ k - 1), (next_u64 g).2) := by
  have hb0 : (2 : Nat) ^ k ≠ 0 := by positivity
  have hmask : (2 : Nat) ^ k &&& (2 ^ k - 1) = 0 := by
    rw [Nat.and_pow_two_sub_one_eq_mod, Nat.mod_self]
  simp [uniform_bounded, hb0, hmask]

theorem threshold_eq (b : Nat) (hb : 0 < b) (hbU : b < U64) :
    threshold b = U64 % b := by
  have h1 : (U64 - b) % U64 = U64 - b := Nat.mod_eq_of_lt (by omega)
  rw [threshold, h1]
  conv_rhs => rw [show U64 = (U64 - b) + b by omega]
  rw [Nat.add_mod_right]

theorem le_mul_iff_ceil_le (A b x : Nat) (hb : 0 < b) :
    A ≤ x * b ↔ (A + b - 1) / b ≤ x := by
  rcases Nat.eq_zero_or_pos A with rfl | hA
  · simp [Nat.div_eq_of_lt (show b - 1 < b by omega)]
  · have h1 : A + b - 1 = (A - 1) + b := by omega
    rw [h1, Nat.add_div_right _ hb, Nat.add_one_le_iff, Nat.div_lt_iff_lt_mul hb]
    omega

theorem ceil_add_div (b B q : Nat) (hb : 0 < b) (hq : 0 < q) :
    (B + b - 1) / b + q = (B + b * q - 1) / b + 1 := by
  rcases Nat.eq_zero_or_pos B with rfl | hB
  · simp only [Nat.zero_add]
    rw [Nat.div_eq_of_lt (show b - 1 < b by omega)]
    obtain ⟨q2, rfl⟩ : ∃ q2, q = q2 + 1 := ⟨q - 1, by omega⟩
    have hmul : b * (q2 + 1) - 1 = b * q2 + (b - 1) := by
      have hms : b * (q2 + 1) = b * q2 + b := by ring
      omega
    rw [hmul, Nat.add_comm (b * q2), Nat.add_mul_div_left _ _ hb,
        Nat.div_eq_of_lt (show b - 1 < b by omega)]
    omega
  · have h1 : B + b - 1 = (B - 1) + b := by omega
    have h2 : B + b * q - 1 = (B - 1) + b * q := by
      have : 0 < b * q := Nat.mul_pos hb hq
      omega
    rw [h1, h2, Nat.add_div_right _ hb, Nat.add_mul_div_left _ _ hb]
    omega

theorem card_filter_mod_range_mul (b v : Nat) (hv : v < b) :
    ∀ q : Nat, ((Finset.range (q * b)).filter (fun x => x % b = v)).card = q := by
  intro q
  induction q with
  | zero => simp
  | succ q ih =>
    have hsplit : Finset.range ((q + 1) * b) =
        Finset.range (q * b) ∪ Finset.Ico (q * b) (q * b + b) := by
      rw [Finset.range_eq_Ico,
          Finset.Ico_union_Ico_eq_Ico (Nat.zero_le _) (Nat.le_add_right _ _)]
      congr 1
      exact Nat.succ_mul q b
    have hdisj : Disjoint
        ((Finset.range (q * b)).filter (fun x => x % b = v))
        ((Finset.Ico (q * b) (q * b + b)).filter (fun x => x % b = v)) := by
      refine Finset.disjoint_left.mpr ?_
      intro a ha hb2
      simp only [Finset.mem_filter, Finset.mem_range, Finset.mem_Ico] at ha hb2
      omega
    have hsingle : (Finset.Ico (q * b) (q * b + b)).filter (fun x => x % b = v)
        = {q * b + v} := by
      ext x
      simp only [Finset.mem_filter, Finset.mem_Ico, Finset.mem_singleton]
      constructor
      · rintro ⟨⟨hge, hlt⟩, hmod⟩
        have hx : x = (x - q * b) + q * b := by omega
        have hb2 : x - q * b < b := by omega
        have hm : x % b = x - q * b := by
          conv_lhs => rw [hx]
          rw [Nat.add_mul_mod_self_right]
          exact Nat.mod_eq_of_lt hb2
        omega
      · rintro rfl
        refine ⟨⟨Nat.le_add_right _ _, by omega⟩, ?_⟩
        rw [Nat.add_comm, Nat.add_mul_mod_self_right]
        exact Nat.mod_eq_of_lt hv
    rw [hsplit, Finset.filter_union, Finset.card_union_of_disjoint hdisj, ih,
        hsingle, Finset.card_singleton]

theorem lemire_filter_eq (b v : Nat) (hb : 0 < b) (hbU : b < U64) (hv : v < b) :
    (Finset.range U64).filter
        (fun x => threshold b ≤ (x * b) % U64 ∧ (x * b) / U64 = v)
      = Finset.Ico ((v * U64 + U64 % b + b - 1) / b)
          ((v * U64 + U64 % b + b - 1) / b + U64 / b) := by
  have ht := threshold_eq b hb hbU
  have hU : (0:Nat) < U64 := by norm_num [U64]
  have htb : U64 % b < b := Nat.mod_lt _ hb
  have hNbq : b * (U64 / b) + U64 % b = U64 := Nat.div_add_mod U64 b
  have hq1 : 0 < U64 / b := Nat.div_pos (le_of_lt hbU) hb
  have hceil := le_mul_iff_ceil_le (v * U64 + U64 % b) b
  have hid : (v * U64 + U64 % b + b - 1) / b + U64 / b
      = (v * U64 + U64 - 1) / b + 1 := by
    have h3 := ceil_add_div b (v * U64 + U64 % b) (U64 / b) hb hq1
    have h4 : v * U64 + U64 % b + b * (U64 / b) - 1 = v * U64 + U64 - 1 := by
      omega
    rw [h3, h4]
  ext x
  simp only [Finset.mem_filter, Finset.mem_range, Finset.mem_Ico]
  have hupper : x ≤ (v * U64 + U64 - 1) / b ↔ x * b ≤ v * U64 + U64 - 1 :=
    Nat.le_div_iff_mul_le hb
  have hdm := Nat.div_add_mod (x * b) U64
  have hmlt : (x * b) % U64 < U64 := Nat.mod_lt _ hU
  constructor
  · rintro ⟨hxN, hge, hdiv⟩
    rw [ht] at hge
    rw [hdiv, Nat.mul_comm U64 v] at hdm
    have hA : v * U64 + U64 % b ≤ x * b := by omega
    have hB : x * b < v * U64 + U64 := by omega
    refine ⟨(hceil x hb).mp hA, ?_⟩
    rw [hid]
    have := hupper.mpr (by omega)
    omega
  · rintro ⟨h1, h2⟩
    have hA : v * U64 + U64 % b ≤ x * b := (hceil x hb).mpr h1
    rw [hid] at h2
    have hB : x * b ≤ v * U64 + U64 - 1 := hupper.mp (by omega)
    have hring : (v + 1) * U64 = v * U64 + U64 := by ring
    have hxN : x < U64 := by
      have hvb : (v + 1) * U64 ≤ b * U64 := Nat.mul_le_mul_right U64 (by omega)
      have hxb : x * b < U64 * b := by
        have h5 : x * b < (v + 1) * U64 := by omega
        have h6 : b * U64 = U64 * b := Nat.mul_comm b U64
        omega
      exact lt_of_mul_lt_mul_right hxb (Nat.zero_le b)
    have hdivv : (x * b) / U64 = v := by
      apply Nat.div_eq_of_lt_le
      · omega
      · omega
    refine ⟨hxN, ?_, hdivv⟩
    rw [ht]
    rw [hdivv, Nat.mul_comm U64 v] at hdm
    omega

theorem lemireCount_eq (b v : Nat) (hb : 0 < b) (hbU : b < U64) (hv : v < b) :
    lemireCount b v = U64 / b := by
  rw [lemireCount, lemire_filter_eq b v hb hbU hv, Nat.card_Ico,
      Nat.add_sub_cancel_left]

theorem maskCount_pow2 (k v : Nat) (hk : k < 64) (hv : v < 2 ^ k) :
    maskCount (2 ^ k) v = U64 / 2 ^ k := by
  have hrange : U64 = 2 ^ (64 - k) * 2 ^ k := by
    rw [← pow_add, show 64 - k + k = 64 by omega]
    rfl
  rw [maskCount]
  simp only [Nat.and_pow_two_sub_one_eq_mod]
  rw [show Finset.range U64 = Finset.range (2 ^ (64 - k) * 2 ^ k) by rw [← hrange],
      card_filter_mod_range_mul (2 ^ k) v hv (2 ^ (64 - k)),
      hrange, Nat.mul_div_cancel _ (by positivity)]

theorem not_dvd_of_not_pow2 (b : Nat) (hnp : b &&& (b - 1) ≠ 0) : ¬ b ∣ U64 := by
  intro hdvd
  rw [U64] at hdvd
  obtain ⟨m, hm, rfl⟩ := (Nat.dvd_prime_pow Nat.prime_two).mp hdvd
  exact hnp (by rw [Nat.and_pow_two_sub_one_eq_mod, Nat.mod_self])

theorem portable_limit_eq (b : Nat) (hnd : ¬ b ∣ U64) :
    portableLimit b = (U64 / b) * b := by
  rw [portableLimit]
  congr 1
  conv_rhs => rw [show U64 = (U64 - 1) + 1 by norm_num [U64]]
  rw [Nat.succ_div,
      if_neg (by rwa [show U64 - 1 + 1 = U64 by norm_num [U64]]),
      Nat.add_zero]

theorem portableCount_eq (b v : Nat) (hnd : ¬ b ∣ U64)
    (hv : v < b) : portableCount b v = U64 / b := by
  have hlim : portableLimit b = (U64 / b) * b := portable_limit_eq b hnd
  have hle : (U64 / b) * b ≤ U64 := Nat.div_mul_le_self U64 b
  rw [portableCount]
  have hset : (Finset.range U64).filter (fun x => x < portableLimit b ∧ x % b = v)
      = (Finset.range ((U64 / b) * b)).filter (fun x => x % b = v) := by
    ext x
    simp only [Finset.mem_filter, Finset.mem_range, hlim]
    constructor
    · rintro ⟨h1, h2, h3⟩
      exact ⟨h2, h3⟩
    · rintro ⟨h1, h2⟩
      exact ⟨by omega, h1, h2⟩
  rw [hset, card_filter_mod_range_mul b v hv (U64 / b)]

/- ------------------------------------------------------------------ -/
/- Claim theorems                                                     -/
/- ------------------------------------------------------------------ -/

/-- C1: exact equidistribution of uniform_bounded over the 2^64 possible
draws: for every bound in (0, 2^64) and every value v below the bound,
the power-of-two mask path sends exactly 2^64 / bound draws to v, and
the wide-multiply rejection path accepts and sends exactly 2^64 / bound
draws to v; in both cases the count does not depend on v, so each value
is produced with probability exactly 1 / bound. -/
theorem claim_C1 (b v : Nat) (hb : 0 < b) (hbU : b < U64) (hv : v < b) :
    (∀ k, b = 2 ^ k → maskCount b v = U64 / b) ∧
    lemireCount b v = U64 / b := by
  refine ⟨fun k hk => ?_, lemireCount_eq b v hb hbU hv⟩
  subst hk
  have hk64 : k < 64 := by
    have h2k : (2:Nat) ^ k < 2 ^ 64 := by
      have := hbU
      rw [U64] at this
      exact this
    exact (Nat.pow_lt_pow_iff_right (by decide)).mp h2k
  exact maskCount_pow2 k v hk64 hv

theorem claim_C1_witness :
    maskCount 2 1 = U64 / 2 ∧ lemireCount 3 1 = U64 / 3 :=
  ⟨(claim_C1 2 1 (by decide) (by decide) (by decide)).1 1 rfl,
   (claim_C1 3 1 (by decide) (by decide) (by decide)).2⟩

/-- C6: for every non-power-of-two bound in (0, 2^64) and every value v
below the bound, the portable fallback path accepts and sends exactly as
many of the 2^64 possible draws to v as the wide-multiply rejection path
does, so the two paths produce the same exact distribution. -/
theorem claim_C6 (b v : Nat) (hb : 0 < b) (hbU : b < U64)
    (hnp : b &&& (b - 1) ≠ 0) (hv : v < b) :
    portableCount b v = lemireCount b v := by
  rw [portableCount_eq b v (not_dvd_of_not_pow2 b hnp) hv,
      lemireCount_eq b v hb hbU hv]

theorem claim_C6_witness : portableCount 3 2 = lemireCount 3 2 :=
  claim_C6 3 2 (by decide) (by decide) (by decide) (by decide)

/-- C9: for every generator state, uniform_bounded with bound 0 returns
0 and leaves the generator untouched: no draw is consumed, no failure. -/
theorem claim_C9 (fuel : Nat) (g : Xoshiro) :
    uniform_bounded fuel g 0 = some (0, g) := by
  simp [uniform_bounded]

/-- C5: for every power-of-two bound, uniform_bounded returns one draw
masked with bound - 1 and advances the state by exactly one next_u64
step, with no rejection loop (the result is independent of the fuel). -/
theorem claim_C5 (fuel : Nat) (g : Xoshiro) (b : Nat) (hpow : ∃ k, b = 2 ^ k) :
    uniform_bounded fuel g b
      = some ((next_u64 g).1 &&& (b - 1), (next_u64 g).2) := by
  obtain ⟨k, rfl⟩ := hpow
  exact ub_pow2 fuel g k

theorem claim_C5_witness :
    uniform_bounded 0 defaultState 4
      = some ((next_u64 defaultState).1 &&& (4 - 1), (next_u64 defaultState).2) :=
  claim_C5 0 defaultState 4 ⟨2, rfl⟩

/-- C10: uniform_bounded with bound 1 takes the mask path: it returns 0
and consumes exactly one draw (the state advances one next_u64 step),
while one_in with bound 1 returns true and consumes no draw. -/
theorem claim_C10 (fuel : Nat) (g : Xoshiro) :
    uniform_bounded fuel g 1 = some (0, (next_u64 g).2) ∧
    one_in fuel g 1 = some (true, g) := by
  constructor
  · have h := ub_pow2 fuel g 0
    simpa using h
  · simp [one_in]

/-- C2: one_in returns true without drawing when bound is at most 1, and
for larger bounds returns exactly the test "bounded sample equals 0" on
the same draw, propagating the sampled generator state. -/
theorem claim_C2 (fuel : Nat) (g : Xoshiro) (bound : Nat) :
    (bound ≤ 1 → one_in fuel g bound = some (true, g)) ∧
    (1 < bound → ∀ v g2, uniform_bounded fuel g bound = some (v, g2) →
        one_in fuel g bound = some (decide (v = 0), g2)) ∧
    (1 < bound → uniform_bounded fuel g bound = none →
        one_in fuel g bound = none) := by
  refine ⟨fun h => ?_, fun h v g2 hu => ?_, fun h hu => ?_⟩
  · simp [one_in, h]
  · simp [one_in, show ¬ bound ≤ 1 by omega, hu]
  · simp [one_in, show ¬ bound ≤ 1 by omega, hu]

theorem claim_C2_witness :
    one_in 5 defaultState 1 = some (true, defaultState) ∧
    one_in 1 defaultState 3
      = some (false, ⟨14549124345952168358, 15552268692959754070,
                      7518695940712740744, 8568902564790096249⟩) :=
  ⟨(claim_C2 5 defaultState 1).1 (by decide),
   (claim_C2 1 defaultState 3).2.1 (by decide) 1
     ⟨14549124345952168358, 15552268692959754070,
      7518695940712740744, 8568902564790096249⟩ (by decide)⟩

/-- C7: for every compile-time bound N of at least 1, the specialization
one_in_t behaves exactly like the runtime one_in with bound N: same
boolean result and same final generator state for the same fuel. -/
theorem claim_C7 (N fuel : Nat) (g : Xoshiro) (hN : 1 ≤ N) :
    one_in_t N fuel g = one_in fuel g N := by
  by_cases h : N = 1
  · subst h
    simp [one_in_t, one_in]
  · have h2 : ¬ N ≤ 1 := by omega
    simp [one_in_t, one_in, h, h2]

theorem claim_C7_witness :
    one_in_t 2 1 defaultState = one_in 1 defaultState 2 :=
  claim_C7 2 1 defaultState (by decide)

/-- C4: for every bound in (0, 2^64), the wraparound expression
(0 - b) % b equals 2^64 % b exactly, and one rejection step accepts a
draw x precisely when the low 64 bits of x * b reach that threshold, in
which case it returns the high 64 bits of the product. -/
theorem claim_C4 (b : Nat) (g : Xoshiro) (hb : 0 < b) (hbU : b < U64) :
    threshold b = U64 % b ∧
    ub_step g b =
      (if threshold b ≤ ((next_u64 g).1 * b) % U64
       then some (((next_u64 g).1 * b) / U64) else none,
       (next_u64 g).2) := by
  constructor
  · have h1 : (U64 - b) % U64 = U64 - b := Nat.mod_eq_of_lt (by omega)
    rw [threshold, h1]
    conv_rhs => rw [show U64 = (U64 - b) + b by omega]
    rw [Nat.add_mod_right]
  · rw [ub_step]
    by_cases hc : threshold b ≤ ((next_u64 g).1 * b) % U64
    · simp [hc]
    · simp [hc]

theorem claim_C4_witness :
    threshold 7 = U64 % 7 ∧
    ub_step defaultState 7 =
      (if threshold 7 ≤ ((next_u64 defaultState).1 * 7) % U64
       then some (((next_u64 defaultState).1 * 7) / U64) else none,
       (next_u64 defaultState).2) :=
  claim_C4 7 defaultState (by decide) (by decide)

/-- C8: the seed mixer is a pure total function of the seed; one mixing
step adds the fixed odd constant GOLDEN to the mixer state and then
applies the three xor/multiply avalanche rounds, and seed_with takes the
four successive outputs of that step as the state words (with the
all-zero fallback substitution). -/
theorem claim_C8 (s : Nat) :
    sm_next s = ((s + GOLDEN) % U64, avalanche ((s + GOLDEN) % U64)) ∧
    GOLDEN % 2 = 1 ∧
    seed_with s =
      (if smOut s 0 ||| smOut s 1 ||| smOut s 2 ||| smOut s 3 = 0
       then fallbackState
       else ⟨smOut s 0, smOut s 1, smOut s 2, smOut s 3⟩) :=
  ⟨rfl, by decide, rfl⟩

/-- C3: the generator state is never all-zero: seeding yields a non-zero
state for every seed (via the fallback constants when needed), next_u64
maps any non-zero state to a non-zero state, and hence every state
reached from a seeded state by repeated draws is non-zero. -/
theorem claim_C3 (seed n : Nat) :
    ¬ allZero (seed_with seed) ∧
    (∀ g : Xoshiro, ¬ allZero g → ¬ allZero (next_u64 g).2) ∧
    ¬ allZero (iterateNext n (seed_with seed)) :=
  ⟨seed_with_nonzero seed, next_preserves_nonzero,
   iterate_preserves_nonzero n _ (seed_with_nonzero seed)⟩

end Odds
